import Mathlib

/-!
Verification of `recover-mscz.py`, a forensic carving tool that recovers
MuseScore `.mscz` archives (ZIP containers) from a raw byte stream.

The Python source is shallowly embedded below.  Bytes are modelled as `Nat`
entries of a `List Nat`; file reads (`f.seek` / `f.read`) become `readAt`;
`re.finditer` over a literal byte pattern becomes `findAll`;
`struct.unpack` of the fixed EOCD / local-file-header layouts becomes
field-wise little-endian decoding; uncaught Python exceptions
(`struct.error`, `OSError` from a negative seek, `UnicodeDecodeError`,
`ZeroDivisionError` in the progress bar) become `RunErr` values that
abort the scan, carrying along the recovered archives already written.
-/

namespace RecoverMscz

/-- Bytes returned by `f.seek(off); f.read(n)` on a file whose content is
`file`: at most `n` bytes starting at `off`, fewer (or none) at EOF.
`f.tell()` afterwards equals `off + (readAt file off n).length`. -/
def readAt (file : List Nat) (off n : Nat) : List Nat :=
  (file.drop off).take n

/-- `zipfile.stringFileHeader`, the local-file-header signature `PK\x03\x04`. -/
def stringFileHeader : List Nat := [0x50, 0x4B, 0x03, 0x04]

/-- `zipfile.stringEndArchive`, the EOCD signature `PK\x05\x06`. -/
def stringEndArchive : List Nat := [0x50, 0x4B, 0x05, 0x06]

/-- `zipfile.sizeFileHeader`: size of the fixed local file header (30). -/
def sizeFileHeader : Nat := 30

/-- `zipfile.sizeEndCentDir`: size of the fixed EOCD record (22). -/
def sizeEndCentDir : Nat := 22

/-- `margin = len(zipfile.stringEndArchive) * 2` (line 155): the chunk
overlap margin, 8 bytes. -/
def margin : Nat := 2 * stringEndArchive.length

/-- Scanner for `re.finditer(sig, buf)`: walks the buffer one byte at a
time; `pos` is the current absolute position, `skip` the number of
positions still covered by the previous match (`re.finditer` resumes
searching after a match's end, so matches never overlap). -/
def findAllGo (sig : List Nat) : List Nat → Nat → Nat → List Nat
  | [], _, _ => []
  | b :: rest, pos, skip =>
    if skip ≠ 0 then findAllGo sig rest (pos + 1) (skip - 1)
    else if sig.isPrefixOf (b :: rest) then
      pos :: findAllGo sig rest (pos + 1) (max sig.length 1 - 1)
    else findAllGo sig rest (pos + 1) 0

/-- `re.finditer(sig, buf)`: start positions of the non-overlapping,
leftmost-first occurrences of the literal pattern `sig` in `buf`,
in ascending order. -/
def findAll (sig buf : List Nat) : List Nat := findAllGo sig buf 0 0

/-- Little-endian 16-bit field at byte offset `i` of `b`. -/
def le16 (b : List Nat) (i : Nat) : Nat :=
  b.getD i 0 + 256 * b.getD (i + 1) 0

/-- Little-endian 32-bit field at byte offset `i` of `b`. -/
def le32 (b : List Nat) (i : Nat) : Nat :=
  b.getD i 0 + 256 * b.getD (i + 1) 0 + 65536 * b.getD (i + 2) 0 +
    16777216 * b.getD (i + 3) 0

/-- The EOCD record fields the program uses, as decoded by
`struct.unpack(zipfile.structEndArchive, buffer)` (struct `<4s4H2LH`):
index 3 = entries on this disk (byte offset +8), index 4 = total entries
(+10), index 5 = central directory size (+12), index 6 = central
directory offset (+16), index 7 = comment length (+20). -/
structure ECDRecord where
  entriesThisDisk : Nat
  entriesTotal : Nat
  cdSize : Nat
  cdOffset : Nat
  commentLen : Nat
deriving DecidableEq, Repr

/-- `struct.unpack(zipfile.structEndArchive, b)`, restricted to the five
fields the program reads. -/
def unpackEndArchive (b : List Nat) : ECDRecord :=
  { entriesThisDisk := le16 b 8
    entriesTotal := le16 b 10
    cdSize := le32 b 12
    cdOffset := le32 b 16
    commentLen := le16 b 20 }

/-- `archive_size` (lines 215-218): central directory size + offset +
comment length + 22. -/
def archiveSizeOf (b : List Nat) : Nat :=
  (unpackEndArchive b).cdSize + (unpackEndArchive b).cdOffset +
    (unpackEndArchive b).commentLen + sizeEndCentDir

/-- Continuation byte 0x80-0xBF. -/
def utf8Cont (b : Nat) : Bool := decide (0x80 ≤ b) && decide (b ≤ 0xBF)

/-- Validity of a byte sequence under Python's strict `bytes.decode('utf-8')`
(RFC 3629: no overlongs, no surrogates, max U+10FFFF). -/
def utf8Valid : List Nat → Bool
  | [] => true
  | b :: rest =>
    if b ≤ 0x7F then utf8Valid rest
    else if 0xC2 ≤ b ∧ b ≤ 0xDF then
      match rest with
      | c :: r => utf8Cont c && utf8Valid r
      | [] => false
    else if b = 0xE0 then
      match rest with
      | c :: d :: r => decide (0xA0 ≤ c) && decide (c ≤ 0xBF) && utf8Cont d && utf8Valid r
      | _ => false
    else if (0xE1 ≤ b ∧ b ≤ 0xEC) ∨ b = 0xEE ∨ b = 0xEF then
      match rest with
      | c :: d :: r => utf8Cont c && utf8Cont d && utf8Valid r
      | _ => false
    else if b = 0xED then
      match rest with
      | c :: d :: r => decide (0x80 ≤ c) && decide (c ≤ 0x9F) && utf8Cont d && utf8Valid r
      | _ => false
    else if b = 0xF0 then
      match rest with
      | c :: d :: e :: r =>
        decide (0x90 ≤ c) && decide (c ≤ 0xBF) && utf8Cont d && utf8Cont e && utf8Valid r
      | _ => false
    else if 0xF1 ≤ b ∧ b ≤ 0xF3 then
      match rest with
      | c :: d :: e :: r => utf8Cont c && utf8Cont d && utf8Cont e && utf8Valid r
      | _ => false
    else if b = 0xF4 then
      match rest with
      | c :: d :: e :: r =>
        decide (0x80 ≤ c) && decide (c ≤ 0x8F) && utf8Cont d && utf8Cont e && utf8Valid r
      | _ => false
    else false

/-- `pathlib.Path(s).name` for a POSIX path string (given as bytes of a
valid UTF-8 string; ASCII bytes such as the separator 47 = sep only ever
encode themselves in UTF-8): the last component after dropping empty and
single-dot components. -/
def pathName (s : List Nat) : List Nat :=
  ((s.splitOn 47).filter (fun seg => decide (seg ≠ [] ∧ seg ≠ [46]))).getLast?.getD []

/-- `pathlib.Path(s).suffix`: the final `.`-suffix of the name, empty when
the last dot is at position 0 (a dotfile) or at the very end. -/
def pathSuffix (s : List Nat) : List Nat :=
  let nm := pathName s
  match nm.reverse.findIdx? (fun b => b == 46) with
  | some j =>
    let i := nm.length - 1 - j
    if 0 < i ∧ i < nm.length - 1 then nm.drop i else []
  | none => []

/-- The bytes of the string `.mscx`. -/
def mscxExt : List Nat := [46, 109, 115, 99, 120]

/-- Uncaught Python exceptions that abort the run, and non-fatal rejection
is not among them: `structError` = `struct.error` (a fixed-layout unpack
got too few bytes), `seekError` = `OSError` (seek to a negative offset),
`decodeError` = `UnicodeDecodeError` (the archive name is not UTF-8;
the source catches only `AttributeError`), `zeroDivError` =
`ZeroDivisionError` in the progress bar when `parse_size` is 0,
`sizeError` = the failure of the `get_disk_size` fallback for an empty
regular file (its `df` output parse raises before returning). -/
inductive RunErr where
  | structError
  | seekError
  | decodeError
  | zeroDivError
  | sizeError
deriving DecidableEq, Repr

/-- `get_mscx_filename(archive)` (lines 42-69): the name stored in the
second local file header.  Returns `none` when fewer than two
local-file-header signatures occur (the `None.decode` `AttributeError`
is caught); raises `struct.error` when the second header is truncated;
raises `UnicodeDecodeError` when the name bytes are not valid UTF-8. -/
def get_mscx_filename (archive : List Nat) :
    Except RunErr (Option (List Nat)) :=
  match findAll stringFileHeader archive with
  | _ :: m2 :: _ =>
    let hbuf := (archive.drop m2).take sizeFileHeader
    if hbuf.length ≠ sizeFileHeader then .error .structError
    else
      let flen := le16 hbuf 26
      let nameBytes := (archive.drop (m2 + sizeFileHeader)).take flen
      if utf8Valid nameBytes then .ok (some nameBytes) else .error .decodeError
  | _ => .ok none

instance exceptDecEq {ε α : Type} [DecidableEq ε] [DecidableEq α] :
    DecidableEq (Except ε α) := fun a b =>
  match a, b with
  | .error x, .error y =>
    match decEq x y with
    | isTrue h => isTrue (h ▸ rfl)
    | isFalse h => isFalse fun hh => h (Except.error.inj hh)
  | .ok x, .ok y =>
    match decEq x y with
    | isTrue h => isTrue (h ▸ rfl)
    | isFalse h => isFalse fun hh => h (Except.ok.inj hh)
  | .error _, .ok _ => isFalse fun hh => Except.noConfusion hh
  | .ok _, .error _ => isFalse fun hh => Except.noConfusion hh

/-- One recovered archive handed to the output collaborator: its absolute
start offset in the input and its raw bytes. -/
structure Emission where
  start : Nat
  bytes : List Nat
deriving DecidableEq, Repr

/-- Outcome of processing a single EOCD signature match. -/
inductive MatchResult where
  | emit (e : Emission)
  | skip
  | fail (e : RunErr)
deriving DecidableEq, Repr

/-- Processing of one EOCD signature match at absolute offset `p`
(lines 197-252): read the 22-byte record from the file, apply the 3/3
entry-count heuristic, compute the archive span, re-read it, extract the
name, and accept iff the name's suffix is `.mscx`. -/
def processOne (file : List Nat) (p : Nat) : MatchResult :=
  let buffer := readAt file p sizeEndCentDir
  if buffer.length ≠ sizeEndCentDir then .fail .structError
  else
    let ecd := unpackEndArchive buffer
    if ¬(ecd.entriesThisDisk = 3 ∧ ecd.entriesTotal = 3) then .skip
    else
      let asize := archiveSizeOf buffer
      if p + sizeEndCentDir < asize then .fail .seekError
      else
        let start := p + sizeEndCentDir - asize
        let archive := readAt file start asize
        match get_mscx_filename archive with
        | .error e => .fail e
        | .ok none => .skip
        | .ok (some nm) =>
          if pathSuffix nm = mscxExt then .emit ⟨start, archive⟩ else .skip

/-- The per-chunk match loop (line 197): matches are processed in ascending
order; the first uncaught exception aborts, keeping the archives already
written. -/
def processMatches (file : List Nat) (chunkStart : Nat) :
    List Nat → List Emission × Option RunErr
  | [] => ([], none)
  | m :: rest =>
    match processOne file (chunkStart + m) with
    | .fail e => ([], some e)
    | .skip => processMatches file chunkStart rest
    | .emit em =>
      let r := processMatches file chunkStart rest
      (em :: r.1, r.2)

/-- The chunked scanning loop (lines 180-252).  Each iteration reads a
chunk at `s`; if at most `margin` bytes come back the scan is done,
otherwise every EOCD match in the chunk is processed and the next chunk
starts at `chunk_end - margin`. -/
def scanLoop (file : List Nat) (c : Nat) (s : Nat) :
    List Emission × Option RunErr :=
  if (readAt file s c).length ≤ margin then ([], none)
  else
    let r := processMatches file s (findAll stringEndArchive (readAt file s c))
    match r.2 with
    | some _ => r
    | none =>
      let rest := scanLoop file c (s + (readAt file s c).length - margin)
      (r.1 ++ rest.1, rest.2)
termination_by file.length - s
decreasing_by
  have h : (readAt file s c).length = min c (file.length - s) := by
    simp [readAt]
  omega

/-- The `(chunk_start, chunk_end)` spans of the chunks that are actually
scanned for signatures (those that survive the `chunk_end - chunk_start
<= margin` EOF test on lines 192-195). -/
def scannedChunks (file : List Nat) (c : Nat) (s : Nat) : List (Nat × Nat) :=
  if (readAt file s c).length ≤ margin then []
  else
    (s, s + (readAt file s c).length) ::
      scannedChunks file c (s + (readAt file s c).length - margin)
termination_by file.length - s
decreasing_by
  have h : (readAt file s c).length = min c (file.length - s) := by
    simp [readAt]
  omega

/-- The command-line arguments the core loop consumes. -/
structure Args where
  seek : Nat
  chunkSize : Nat
  parseLen : Option Int
deriving DecidableEq, Repr

/-- `parse_size` (lines 169-172): `--parse-len` when given, otherwise
`file_size - seek`. -/
def parseSizeOf (file : List Nat) (a : Args) : Int :=
  match a.parseLen with
  | some l => l
  | none => (file.length : Int) - (a.seek : Int)

/-- `main(args)` (lines 148-252) for a regular-file input: recovered
archives in emission order, plus the uncaught exception that aborted the
run, if any.  An empty regular file makes `main` fall back to
`get_disk_size`, whose `df`-output parse raises before returning
(`sizeError`); a zero `parse_size` makes the progress-bar callback
divide by zero on its first call, before any chunk is read
(`zeroDivError`). -/
def main (file : List Nat) (a : Args) : List Emission × Option RunErr :=
  if file.length = 0 then ([], some .sizeError)
  else if parseSizeOf file a = 0 then ([], some .zeroDivError)
  else scanLoop file a.chunkSize a.seek

/-! ## The output-path naming collaborator (`get_safe_to_save_path`, lines 72-89)

Stems are strings, modelled as `List Char`.  The `re.sub` call with
pattern `(?<=_\()\d+(?=\))` replaces every maximal digit run that is
immediately preceded by the two characters underscore + open paren and
immediately followed by a close paren, by the decimal digits of its
value plus one; this is `subCounters`.  Python's recursion in
`get_safe_to_save_path` is unbounded, so the embedding carries fuel. -/

/-- An ASCII decimal digit (the characters matched by `\d` here). -/
def isDig (c : Char) : Bool := decide ('0' ≤ c) && decide (c ≤ '9')

/-- Little-endian decimal digits with explicit fuel (the fuel `n` always
suffices, see `natDigitsAux_eq`). -/
def natDigitsAux : Nat → Nat → List Nat
  | 0, _ => []
  | _ + 1, 0 => []
  | fuel + 1, n + 1 => (n + 1) % 10 :: natDigitsAux fuel ((n + 1) / 10)

/-- Little-endian decimal digits of `n`. -/
def natDigits (n : Nat) : List Nat := natDigitsAux n n

/-- Decimal digits of `n`, most significant first (`str(n)` for `n ≥ 1`). -/
def charsOfNat (n : Nat) : List Char :=
  (natDigits n).reverse.map Nat.digitChar

/-- `int(s)` for a string of decimal digits. -/
def natOfChars (l : List Char) : Nat :=
  l.foldl (fun a c => 10 * a + (c.toNat - 48)) 0

/-- `re.sub(r'(?<=_\()\d+(?=\))', lambda m: str(int(m.group(0)) + 1), stem)`:
scan left to right; at an underscore + open paren, a nonempty digit run
followed by a close paren is a match and is replaced by the digits of its
value plus one (scanning resumes at the close paren); otherwise scanning
moves on by one character. -/
def subCounters : List Char → List Char
  | [] => []
  | '_' :: '(' :: rest =>
    if (rest.takeWhile isDig) ≠ [] ∧
        (rest.drop (rest.takeWhile isDig).length).head? = some ')' then
      '_' :: '(' ::
        (charsOfNat (natOfChars (rest.takeWhile isDig) + 1) ++
          subCounters (rest.drop (rest.takeWhile isDig).length))
    else '_' :: subCounters ('(' :: rest)
  | a :: tail => a :: subCounters tail
termination_by l => l.length
decreasing_by
  all_goals simp only [List.length_drop, List.length_cons]
  all_goals omega

/-- Whether the stem contains a counter, i.e. a substring matched by the
pattern `(?<=_\()\d+(?=\))` of the `re.sub` call. -/
def hasCounter : List Char → Bool
  | [] => false
  | '_' :: '(' :: rest =>
    (decide ((rest.takeWhile isDig) ≠ []) &&
      decide ((rest.drop (rest.takeWhile isDig).length).head? = some ')')) ||
    hasCounter ('(' :: rest)
  | _ :: tail => hasCounter tail

/-- One step of `get_safe_to_save_path` (lines 78-87): the substituted
stem when the regex matched, otherwise the stem with `_(1)` appended. -/
def nextStem (stem : List Char) : List Char :=
  if subCounters stem = stem then stem ++ ['_', '(', '1', ')'] else subCounters stem

/-- `get_safe_to_save_path(path)` (lines 72-89) for a path with the given
stem and suffix: existing file names in the output directory are
`existing`; recursion carries explicit fuel (`none` = fuel exhausted,
which the unbounded Python recursion never reports). -/
def get_safe_to_save_path (existing : List (List Char)) (suffix : List Char) :
    Nat → List Char → Option (List Char)
  | 0, _ => none
  | fuel + 1, stem =>
    if (stem ++ suffix) ∈ existing then
      get_safe_to_save_path existing suffix fuel (nextStem stem)
    else some stem

/-- The characters `_(` ++ digits of `n` ++ `)`, a trailing counter. -/
def counterOf (n : Nat) : List Char := '_' :: '(' :: (charsOfNat n ++ [')'])

/-! ## Concrete inputs used by witnesses and counterexamples -/

/-- A 62-byte blob that the carving pipeline accepts: two local-file-header
signatures (the second with name `a.mscx`), then an EOCD record with
3/3 entries, central directory size 40, offset 0, no comment, so that
`archive_size = 40 + 0 + 0 + 22 = 62`, the blob's own length. -/
def archive62 : List Nat :=
  [0x50, 0x4B, 0x03, 0x04,
   0x50, 0x4B, 0x03, 0x04,
   0, 0, 0, 0, 0, 0, 0, 0, 0, 0, 0, 0, 0, 0, 0, 0, 0, 0, 0, 0, 0, 0,
   6, 0, 0, 0,
   97, 46, 109, 115, 99, 120,
   0x50, 0x4B, 0x05, 0x06,
   0, 0, 0, 0, 3, 0, 3, 0, 40, 0, 0, 0, 0, 0, 0, 0, 0, 0]

/-- `archive62` preceded by two junk bytes: 64 bytes, with the single EOCD
signature at absolute offset 42.  With `chunk_size = 50` that signature
lies wholly inside the 8-byte overlap `[42, 50)` of the first chunk, so
it is scanned again by the second chunk `[42, 64)`. -/
def fileC5 : List Nat := [0, 0] ++ archive62

/-- The archive `processOne` emits for `fileC5` (and, shifted, for the
other concrete inputs built from `archive62`). -/
def emC5 : Emission := ⟨2, archive62⟩

/-- A 22-byte EOCD record with 3/3 entries whose central-directory size
field is 1000, so the computed `archive_size` (1022) exceeds the bytes
before the record's end and `f.seek(-archive_size, SEEK_CUR)` would be
negative. -/
def eocdHuge : List Nat :=
  [0x50, 0x4B, 0x05, 0x06,
   0, 0, 0, 0, 3, 0, 3, 0, 232, 3, 0, 0, 0, 0, 0, 0, 0, 0]

/-- `eocdHuge` followed by `archive62`: the first EOCD match (offset 0)
raises the negative-seek `OSError`, aborting the scan before the
perfectly valid archive whose EOCD signature sits at offset 62. -/
def fileC4 : List Nat := eocdHuge ++ archive62

/-- Like `archive62` but the second local header's name is the single byte
0xFF (file-name length 1), which is not valid UTF-8; EOCD fields give
`archive_size = 35 + 0 + 0 + 22 = 57`, the blob's length. -/
def archive57 : List Nat :=
  [0x50, 0x4B, 0x03, 0x04,
   0x50, 0x4B, 0x03, 0x04,
   0, 0, 0, 0, 0, 0, 0, 0, 0, 0, 0, 0, 0, 0, 0, 0, 0, 0, 0, 0, 0, 0,
   1, 0, 0, 0,
   255,
   0x50, 0x4B, 0x05, 0x06,
   0, 0, 0, 0, 3, 0, 3, 0, 35, 0, 0, 0, 0, 0, 0, 0, 0, 0]

/-- `archive57` preceded by two junk bytes (59 bytes, EOCD signature at
absolute offset 37). -/
def fileC7 : List Nat := [0, 0] ++ archive57

/-- An 8-byte input that starts with the EOCD signature.  Any first read
returns at most 8 = `margin` bytes, so the loop exits before scanning
a single chunk. -/
def file8 : List Nat := [0x50, 0x4B, 0x05, 0x06, 0, 0, 0, 0]

/-- The stem `title`. -/
def titleT : List Char := ['t', 'i', 't', 'l', 'e']

/-- The suffix `.mscz`. -/
def sufMscz : List Char := ['.', 'm', 's', 'c', 'z']

/-- The file name `title.mscz`. -/
def titleName : List Char := titleT ++ sufMscz

/-- The file name `title_(1).mscz`. -/
def title1Name : List Char := titleT ++ counterOf 1 ++ sufMscz

/-- Acceptance of the EOCD signature match at absolute offset `p`: the
full 22-byte record can be read, it carries 3/3 entries, the computed
span is not negative, and the second-local-header name of the re-read
span decodes with suffix `.mscx`. -/
def acceptCond (file : List Nat) (p : Nat) : Prop :=
  (readAt file p sizeEndCentDir).length = sizeEndCentDir ∧
  (unpackEndArchive (readAt file p sizeEndCentDir)).entriesThisDisk = 3 ∧
  (unpackEndArchive (readAt file p sizeEndCentDir)).entriesTotal = 3 ∧
  archiveSizeOf (readAt file p sizeEndCentDir) ≤ p + sizeEndCentDir ∧
  ∃ nm,
    get_mscx_filename (readAt file
      (p + sizeEndCentDir - archiveSizeOf (readAt file p sizeEndCentDir))
      (archiveSizeOf (readAt file p sizeEndCentDir))) = Except.ok (some nm) ∧
    pathSuffix nm = mscxExt

/-! ## General lemmas about the embedding -/

theorem readAt_length (file : List Nat) (off n : Nat) :
    (readAt file off n).length = min n (file.length - off) := by
  simp [readAt]

theorem scanLoop_done (file : List Nat) (c s : Nat)
    (h : (readAt file s c).length ≤ margin) :
    scanLoop file c s = ([], none) := by
  rw [scanLoop]
  simp [h]

theorem scanLoop_err (file : List Nat) (c s : Nat) (ems : List Emission)
    (e : RunErr) (h1 : margin < (readAt file s c).length)
    (h2 : processMatches file s (findAll stringEndArchive (readAt file s c)) =
      (ems, some e)) :
    scanLoop file c s = (ems, some e) := by
  rw [scanLoop]
  rw [if_neg (by omega)]
  simp [h2]

theorem scanLoop_cont (file : List Nat) (c s s₂ : Nat) (ems : List Emission)
    (h1 : margin < (readAt file s c).length)
    (h2 : processMatches file s (findAll stringEndArchive (readAt file s c)) =
      (ems, none))
    (h3 : s + (readAt file s c).length - margin = s₂) :
    scanLoop file c s =
      (ems ++ (scanLoop file c s₂).1, (scanLoop file c s₂).2) := by
  subst h3
  rw [scanLoop]
  rw [if_neg (by omega)]
  simp [h2]

theorem scannedChunks_done (file : List Nat) (c s : Nat)
    (h : (readAt file s c).length ≤ margin) :
    scannedChunks file c s = [] := by
  rw [scannedChunks]
  simp [h]

theorem scannedChunks_cons (file : List Nat) (c s : Nat)
    (h : margin < (readAt file s c).length) :
    scannedChunks file c s =
      (s, s + (readAt file s c).length) ::
        scannedChunks file c (s + (readAt file s c).length - margin) := by
  rw [scannedChunks]
  rw [if_neg (by omega)]

/-- Every archive a chunk pass emits comes from `processOne` on one of the
chunk's matches, and each match contributes at most one archive. -/
theorem processMatches_emits (file : List Nat) (st : Nat) :
    ∀ ms : List Nat,
      ((processMatches file st ms).1.length ≤ ms.length) ∧
      (∀ em ∈ (processMatches file st ms).1,
        ∃ m ∈ ms, processOne file (st + m) = MatchResult.emit em) := by
  intro ms
  induction ms with
  | nil => simp [processMatches]
  | cons m rest ih =>
    cases hpo : processOne file (st + m) with
    | fail e =>
      refine ⟨?_, ?_⟩
      · simp [processMatches, hpo]
      · intro em hem
        simp [processMatches, hpo] at hem
    | skip =>
      refine ⟨?_, ?_⟩
      · simp only [processMatches, hpo]
        exact Nat.le_succ_of_le ih.1
      · intro em hem
        simp only [processMatches, hpo] at hem
        obtain ⟨m', hm', he'⟩ := ih.2 em hem
        exact ⟨m', List.mem_cons_of_mem _ hm', he'⟩
    | emit em₀ =>
      refine ⟨?_, ?_⟩
      · simp only [processMatches, hpo, List.length_cons]
        exact Nat.succ_le_succ ih.1
      · intro em hem
        simp only [processMatches, hpo, List.mem_cons] at hem
        rcases hem with hl | hr
        · exact ⟨m, List.mem_cons_self m rest, by rw [hpo, hl]⟩
        · obtain ⟨m', hm', he'⟩ := ih.2 em hr
          exact ⟨m', List.mem_cons_of_mem _ hm', he'⟩

/-- Every archive the scan loop emits comes from `processOne` at some
absolute offset. -/
theorem scanLoop_emits (file : List Nat) (c : Nat) :
    ∀ n s, file.length - s ≤ n →
      ∀ em ∈ (scanLoop file c s).1, ∃ p, processOne file p = MatchResult.emit em := by
  intro n
  induction n with
  | zero =>
    intro s hs em hem
    rw [scanLoop_done file c s (by rw [readAt_length]; omega)] at hem
    simp at hem
  | succ n ih =>
    intro s hs em hem
    by_cases hdone : (readAt file s c).length ≤ margin
    · rw [scanLoop_done file c s hdone] at hem
      simp at hem
    · push_neg at hdone
      have hlen := readAt_length file s c
      have hslt : s < file.length := by omega
      cases hpm : (processMatches file s (findAll stringEndArchive (readAt file s c))) with
      | mk ems err =>
        cases err with
        | some e =>
          rw [scanLoop_err file c s ems e hdone hpm] at hem
          obtain ⟨m, _, hm⟩ := (processMatches_emits file s _).2 em (by rw [hpm] at *; exact hem)
          exact ⟨s + m, hm⟩
        | none =>
          rw [scanLoop_cont file c s (s + (readAt file s c).length - margin) ems hdone hpm rfl] at hem
          simp only [List.mem_append] at hem
          rcases hem with hl | hr
          · obtain ⟨m, _, hm⟩ := (processMatches_emits file s _).2 em (by rw [hpm]; exact hl)
            exact ⟨s + m, hm⟩
          · exact ih (s + (readAt file s c).length - margin) (by omega) em hr

/-! ## Claim C10 -/

/-- Counterexample to claim C10 as stated: on a 50-byte input with
`chunk_size = 100` the first iteration reads 50 bytes (more than the
8-byte margin, so it does not exit) yet advances the cursor by only
`50 - 8 = 42` bytes, less than `chunk_size - margin = 92`. -/
theorem claim10_cex :
    ¬((readAt (List.replicate 50 0) 0 100).length ≤ margin) ∧
    (0 + (readAt (List.replicate 50 0) 0 100).length - margin) - 0 <
      100 - margin := by
  decide

/-- Claim C10 (amended): the chunked scanning loop terminates for every
finite input and positive `chunk_size` (`scanLoop` is a total function);
an iteration that reads at most `margin` bytes exits — in particular any
iteration with `chunk_size ≤ margin`, so such a run stops after its
first chunk without scanning — and an iteration that reads more than
`margin` bytes strictly advances the cursor (by the bytes read minus
`margin`, which can be less than `chunk_size - margin` on the final
partial chunk), never past the end of the input. -/
theorem claim10_termination :
    (∀ (file : List Nat) (c s : Nat), c ≤ margin →
      scanLoop file c s = ([], none)) ∧
    (∀ (file : List Nat) (c s : Nat), (readAt file s c).length ≤ margin →
      scanLoop file c s = ([], none)) ∧
    (∀ (file : List Nat) (c s : Nat), margin < (readAt file s c).length →
      s < s + (readAt file s c).length - margin ∧
      s + (readAt file s c).length - margin ≤ file.length) := by
  refine ⟨?_, ?_, ?_⟩
  · intro file c s h
    exact scanLoop_done file c s (by rw [readAt_length]; omega)
  · intro file c s h
    exact scanLoop_done file c s h
  · intro file c s h
    have := readAt_length file s c
    constructor <;> omega

/-- Instance of claim C10 at concrete inputs: a 3-byte input with
`chunk_size = 5 ≤ margin` stops with no archives, and on the 50-byte
input the cursor strictly advances but stays within the input. -/
theorem claim10_witness :
    scanLoop [0, 0, 0] 5 0 = ([], none) ∧
    (0 < 0 + (readAt (List.replicate 50 0) 0 100).length - margin ∧
      0 + (readAt (List.replicate 50 0) 0 100).length - margin ≤
        (List.replicate 50 0).length) :=
  ⟨claim10_termination.1 [0, 0, 0] 5 0 (by decide),
   claim10_termination.2.2 (List.replicate 50 0) 100 0 (by decide)⟩

/-! ## Claim C8 -/

/-- Claim C8 is right about the intent but the code crashes: with `--seek`
equal to the input length (and no `--parse-len`), `parse_size` is 0 and
the progress-bar callback's `current / total` raises
`ZeroDivisionError` on the first loop iteration, before any chunk is
read; with an explicit positive `--parse-len` the same scan terminates
cleanly with zero archives, confirming the intended behaviour of the
loop itself. -/
theorem claim8_zero_div :
    main [0] ⟨1, 16, none⟩ = ([], some RunErr.zeroDivError) ∧
    main [0] ⟨1, 16, some 1⟩ = ([], none) := by
  constructor
  · decide
  · have h : scanLoop [0] 16 1 = ([], none) := scanLoop_done _ _ _ (by decide)
    unfold main
    rw [if_neg (by decide), if_neg (by decide)]
    exact h

/-! ## Claim C6 -/

/-- Counterexample to claim C6 as stated: on the buffer whose byte at
offset `i` is `i`, the parser's decoded fields differ from little-endian
reads at the claimed offsets +10, +12, +16 and +20 (the actual offsets
are +8, +10, +12 and +16; only `comment_length` sits at +20). -/
theorem claim6_cex :
    (unpackEndArchive (List.range 22)).entriesThisDisk ≠ le16 (List.range 22) 10 ∧
    (unpackEndArchive (List.range 22)).entriesTotal ≠ le16 (List.range 22) 12 ∧
    (unpackEndArchive (List.range 22)).cdSize ≠ le32 (List.range 22) 16 ∧
    (unpackEndArchive (List.range 22)).cdOffset ≠ le32 (List.range 22) 20 := by
  decide

/-- Claim C6 (amended): the EOCD parser decodes little-endian fields at
fixed offsets from the signature start — `entries_this_disk` at +8,
`entries_total` at +10, `central_dir_size` at +12, `central_dir_offset`
at +16 and `comment_length` at +20 — and the five decoded fields occupy
bytes +8 through +21: the parse depends on no bytes outside that range
(besides none below +8). -/
theorem claim6_offsets :
    (∀ b : List Nat,
      (unpackEndArchive b).entriesThisDisk = b.getD 8 0 + 256 * b.getD 9 0 ∧
      (unpackEndArchive b).entriesTotal = b.getD 10 0 + 256 * b.getD 11 0 ∧
      (unpackEndArchive b).cdSize = b.getD 12 0 + 256 * b.getD 13 0 +
        65536 * b.getD 14 0 + 16777216 * b.getD 15 0 ∧
      (unpackEndArchive b).cdOffset = b.getD 16 0 + 256 * b.getD 17 0 +
        65536 * b.getD 18 0 + 16777216 * b.getD 19 0 ∧
      (unpackEndArchive b).commentLen = b.getD 20 0 + 256 * b.getD 21 0) ∧
    (∀ b₁ b₂ : List Nat,
      (∀ i ∈ List.range 22, 8 ≤ i → b₁.getD i 0 = b₂.getD i 0) →
      unpackEndArchive b₁ = unpackEndArchive b₂) := by
  constructor
  · intro b
    exact ⟨rfl, rfl, rfl, rfl, rfl⟩
  · intro b₁ b₂ h
    have e : ∀ i, 8 ≤ i → i < 22 → b₁.getD i 0 = b₂.getD i 0 := by
      intro i h1 h2
      exact h i (List.mem_range.mpr h2) h1
    simp only [unpackEndArchive, le16, le32]
    rw [e 8 (by omega) (by omega), e 9 (by omega) (by omega),
      e 10 (by omega) (by omega), e 11 (by omega) (by omega),
      e 12 (by omega) (by omega), e 13 (by omega) (by omega),
      e 14 (by omega) (by omega), e 15 (by omega) (by omega),
      e 16 (by omega) (by omega), e 17 (by omega) (by omega),
      e 18 (by omega) (by omega), e 19 (by omega) (by omega),
      e 20 (by omega) (by omega), e 21 (by omega) (by omega)]

/-- Instance of claim C6 at a concrete input: two buffers agreeing on
bytes +8 through +21 but nowhere below +8 parse identically. -/
theorem claim6_witness :
    unpackEndArchive (List.range 22) =
      unpackEndArchive ([9, 9, 9, 9, 9, 9, 9, 9] ++ (List.range 22).drop 8) :=
  claim6_offsets.2 (List.range 22) ([9, 9, 9, 9, 9, 9, 9, 9] ++ (List.range 22).drop 8)
    (by decide)

/-! ## Claim C5 -/

/-- Counterexample to claim C5 as stated: `fileC5` contains exactly one
EOCD signature (at offset 42), yet with `chunk_size = 50` the signature
lies wholly inside the 8-byte overlap of the first two chunks and the
single match is processed twice — the same archive (span `[2, 64)`) is
reported twice in one pass. -/
theorem claim5_cex :
    findAll stringEndArchive fileC5 = [42] ∧
    main fileC5 ⟨0, 50, none⟩ = ([emC5, emC5], none) := by
  refine ⟨by decide, ?_⟩
  have h2 : scanLoop fileC5 50 56 = ([], none) := scanLoop_done _ _ _ (by decide)
  have h1 : scanLoop fileC5 50 42 = ([emC5], none) := by
    have h := scanLoop_cont fileC5 50 42 56 [emC5] (by decide) (by decide) (by decide)
    rw [h2] at h
    simpa using h
  have h0 : scanLoop fileC5 50 0 = ([emC5, emC5], none) := by
    have h := scanLoop_cont fileC5 50 0 42 [emC5] (by decide) (by decide) (by decide)
    rw [h1] at h
    simpa using h
  unfold main
  rw [if_neg (by decide), if_neg (by decide)]
  exact h0

/-- Claim C5 (amended): within a single chunk pass the EOCD matches are
processed left-to-right and each match yields at most one emission; but
a match lying wholly within the overlap margin is scanned again by the
next chunk, so a single EOCD match can be emitted twice across
consecutive chunks (spans may also overlap when two independent matches
both satisfy the heuristic). -/
theorem claim5_per_match : ∀ (file : List Nat) (st : Nat) (ms : List Nat),
    ((processMatches file st ms).1.length ≤ ms.length) ∧
    (∀ em ∈ (processMatches file st ms).1,
      ∃ m ∈ ms, processOne file (st + m) = MatchResult.emit em) :=
  fun file st ms => processMatches_emits file st ms

/-- Instance of claim C5 at a concrete input: the single emission of the
chunk pass over `fileC5`'s one match comes from that match. -/
theorem claim5_witness :
    ∃ m ∈ [42], processOne fileC5 (0 + m) = MatchResult.emit emC5 :=
  (claim5_per_match fileC5 0 [42]).2 emC5 (by decide)

/-! ## Claim C4 -/

/-- `get_mscx_filename` can only raise `struct.error` or
`UnicodeDecodeError`, never the negative-seek `OSError`. -/
theorem get_mscx_filename_ne_seek (a : List Nat) :
    get_mscx_filename a ≠ Except.error RunErr.seekError := by
  unfold get_mscx_filename
  cases findAll stringFileHeader a with
  | nil => simp
  | cons m1 t =>
    cases t with
    | nil => simp
    | cons m2 t2 =>
      dsimp only
      split_ifs <;> simp

/-- Counterexample to claim C4 as stated: in `fileC4` the first EOCD
match (offset 0) computes a span whose start would be negative; instead
of discarding the candidate and continuing, the run aborts with the
uncaught `OSError`, and the perfectly valid archive at the second match
(offset 62, which `processOne` would accept) is never recovered. -/
theorem claim4_cex :
    main fileC4 ⟨0, 200, none⟩ = ([], some RunErr.seekError) ∧
    processOne fileC4 62 = MatchResult.emit ⟨22, archive62⟩ ∧
    findAll stringEndArchive fileC4 = [0, 62] := by
  refine ⟨?_, by decide, by decide⟩
  have h : scanLoop fileC4 200 0 = ([], some RunErr.seekError) :=
    scanLoop_err fileC4 200 0 [] RunErr.seekError (by decide) (by decide)
  unfold main
  rw [if_neg (by decide), if_neg (by decide)]
  exact h

/-- Claim C4 (amended): a candidate that merely fails a check (entry
count, missing or non-`.mscx` name) is skipped and scanning continues
with the remaining matches; but a truncated EOCD read (fewer than 22
bytes remain, `struct.error`) or a negative computed `start_offset`
(`OSError` from the relative seek) is an uncaught exception that
discards all remaining matches and terminates the run — no per-candidate
error is confined to the candidate.  The negative-span abort happens
exactly when a full 3/3 record's computed `archive_size` exceeds
`eocd_offset + 22`. -/
theorem claim4_local_errors :
    (∀ (file : List Nat) (st m : Nat) (rest : List Nat) (e : RunErr),
      processOne file (st + m) = MatchResult.fail e →
      processMatches file st (m :: rest) = ([], some e)) ∧
    (∀ (file : List Nat) (st m : Nat) (rest : List Nat),
      processOne file (st + m) = MatchResult.skip →
      processMatches file st (m :: rest) = processMatches file st rest) ∧
    (∀ (file : List Nat) (p : Nat),
      (readAt file p sizeEndCentDir).length < sizeEndCentDir →
      processOne file p = MatchResult.fail RunErr.structError) ∧
    (∀ (file : List Nat) (p : Nat),
      processOne file p = MatchResult.fail RunErr.seekError ↔
      ((readAt file p sizeEndCentDir).length = sizeEndCentDir ∧
        (unpackEndArchive (readAt file p sizeEndCentDir)).entriesThisDisk = 3 ∧
        (unpackEndArchive (readAt file p sizeEndCentDir)).entriesTotal = 3 ∧
        p + sizeEndCentDir < archiveSizeOf (readAt file p sizeEndCentDir))) := by
  refine ⟨?_, ?_, ?_, ?_⟩
  · intro file st m rest e h
    simp [processMatches, h]
  · intro file st m rest h
    simp [processMatches, h]
  · intro file p h
    simp only [processOne]
    rw [if_pos (by omega)]
  · intro file p
    constructor
    · intro h
      simp only [processOne] at h
      by_cases h1 : (readAt file p sizeEndCentDir).length ≠ sizeEndCentDir
      · rw [if_pos h1] at h
        simp at h
      · rw [if_neg h1] at h
        push_neg at h1
        by_cases h2 : (unpackEndArchive (readAt file p sizeEndCentDir)).entriesThisDisk = 3 ∧
            (unpackEndArchive (readAt file p sizeEndCentDir)).entriesTotal = 3
        · rw [if_neg (not_not_intro h2)] at h
          by_cases h3 : p + sizeEndCentDir < archiveSizeOf (readAt file p sizeEndCentDir)
          · exact ⟨h1, h2.1, h2.2, h3⟩
          · rw [if_neg h3] at h
            cases hm : get_mscx_filename (readAt file
                (p + sizeEndCentDir - archiveSizeOf (readAt file p sizeEndCentDir))
                (archiveSizeOf (readAt file p sizeEndCentDir))) with
            | error e =>
              rw [hm] at h
              have he : e = RunErr.seekError := by
                cases h
                rfl
              rw [he] at hm
              exact absurd hm (get_mscx_filename_ne_seek _)
            | ok o =>
              rw [hm] at h
              cases o with
              | none => simp at h
              | some nm =>
                dsimp only at h
                split at h <;> simp at h
        · rw [if_pos h2] at h
          simp at h
    · rintro ⟨h1, h2, h3, h4⟩
      simp only [processOne]
      rw [if_neg (by omega), if_neg (not_not_intro ⟨h2, h3⟩), if_pos h4]

/-- Instance of claim C4 at a concrete input: the failing first match of
`fileC4` makes the chunk pass return the error and drop the remaining
match list `[62]`. -/
theorem claim4_witness :
    processMatches fileC4 0 [0, 62] = ([], some RunErr.seekError) :=
  claim4_local_errors.1 fileC4 0 0 [62] RunErr.seekError (by decide)

/-! ## Claim C7 -/

/-- Counterexample to claim C7 as stated: `archive57` carries two
local-file-header signatures and a 1-byte name `0xFF` that is not valid
UTF-8; instead of returning the raw bytes unmodified, name extraction
raises the uncaught `UnicodeDecodeError`, and a scan of `fileC7`
(which accepts that candidate up to the name) aborts with it — the
decode failure is fatal to the run. -/
theorem claim7_cex :
    get_mscx_filename archive57 = Except.error RunErr.decodeError ∧
    main fileC7 ⟨0, 100, none⟩ = ([], some RunErr.decodeError) := by
  refine ⟨by decide, ?_⟩
  have h : scanLoop fileC7 100 0 = ([], some RunErr.decodeError) :=
    scanLoop_err fileC7 100 0 [] RunErr.decodeError (by decide) (by decide)
  unfold main
  rw [if_neg (by decide), if_neg (by decide)]
  exact h

/-- Claim C7 (amended): name extraction attempts UTF-8 decoding of the
second local header's name bytes; with fewer than two local-header
signatures the result is `None` (the `AttributeError` of `None.decode`
is the only caught failure); with a second header present and readable,
valid UTF-8 name bytes are returned, and bytes that are not valid UTF-8
raise an uncaught `UnicodeDecodeError` (no raw-bytes fallback); a
truncated second header raises `struct.error`. -/
theorem claim7_name_extraction :
    (∀ a : List Nat, (findAll stringFileHeader a).length ≤ 1 →
      get_mscx_filename a = Except.ok none) ∧
    (∀ (a : List Nat) (m1 m2 : Nat) (t : List Nat),
      findAll stringFileHeader a = m1 :: m2 :: t →
      ((a.drop m2).take sizeFileHeader).length = sizeFileHeader →
      (utf8Valid ((a.drop (m2 + sizeFileHeader)).take
          (le16 ((a.drop m2).take sizeFileHeader) 26)) = true →
        get_mscx_filename a = Except.ok (some ((a.drop (m2 + sizeFileHeader)).take
          (le16 ((a.drop m2).take sizeFileHeader) 26)))) ∧
      (utf8Valid ((a.drop (m2 + sizeFileHeader)).take
          (le16 ((a.drop m2).take sizeFileHeader) 26)) = false →
        get_mscx_filename a = Except.error RunErr.decodeError)) ∧
    (∀ (a : List Nat) (m1 m2 : Nat) (t : List Nat),
      findAll stringFileHeader a = m1 :: m2 :: t →
      ((a.drop m2).take sizeFileHeader).length ≠ sizeFileHeader →
      get_mscx_filename a = Except.error RunErr.structError) := by
  refine ⟨?_, ?_, ?_⟩
  · intro a h
    cases hf : findAll stringFileHeader a with
    | nil => simp [get_mscx_filename, hf]
    | cons x t =>
      cases t with
      | nil => simp [get_mscx_filename, hf]
      | cons y t2 =>
        rw [hf] at h
        simp at h
  · intro a m1 m2 t hf hlen
    constructor
    · intro hv
      simp only [get_mscx_filename, hf]
      rw [if_neg (not_not_intro hlen), if_pos hv]
    · intro hv
      simp only [get_mscx_filename, hf]
      rw [if_neg (not_not_intro hlen), if_neg (by simp [hv])]
  · intro a m1 m2 t hf hlen
    simp only [get_mscx_filename, hf]
    rw [if_pos hlen]

/-- Instance of claim C7 at concrete inputs: an archive with no
local-header signature yields `None`, and `archive62`'s valid UTF-8 name
`a.mscx` is returned. -/
theorem claim7_witness :
    get_mscx_filename [0, 1, 2] = Except.ok none ∧
    get_mscx_filename archive62 = Except.ok (some [97, 46, 109, 115, 99, 120]) := by
  refine ⟨claim7_name_extraction.1 [0, 1, 2] (by decide), ?_⟩
  have h := (claim7_name_extraction.2.1 archive62 0 4 [] (by decide) (by decide)).1
    (by decide)
  exact h.trans (by decide)

/-! ## Claim C1 -/

/-- Claim C1: a candidate is accepted and written iff the EOCD record's
two entry counts both equal 3 and the `.mscx`-suffix check (byte-exact,
hence case-sensitive) passes on the name decoded from the archive's
second local file header; and every archive any run emits comes from a
signature match satisfying those checks — no archive failing either
check is ever emitted. -/
theorem claim1_accept_iff :
    (∀ (file : List Nat) (p : Nat),
      (∃ em, processOne file p = MatchResult.emit em) ↔ acceptCond file p) ∧
    (∀ (file : List Nat) (a : Args) (em : Emission),
      em ∈ (main file a).1 →
      ∃ p, processOne file p = MatchResult.emit em ∧ acceptCond file p) := by
  have key : ∀ (file : List Nat) (p : Nat),
      (∃ em, processOne file p = MatchResult.emit em) ↔ acceptCond file p := by
    intro file p
    constructor
    · rintro ⟨em, h⟩
      simp only [processOne] at h
      by_cases h1 : (readAt file p sizeEndCentDir).length ≠ sizeEndCentDir
      · rw [if_pos h1] at h
        simp at h
      · rw [if_neg h1] at h
        push_neg at h1
        by_cases h2 : (unpackEndArchive (readAt file p sizeEndCentDir)).entriesThisDisk = 3 ∧
            (unpackEndArchive (readAt file p sizeEndCentDir)).entriesTotal = 3
        · rw [if_neg (not_not_intro h2)] at h
          by_cases h3 : p + sizeEndCentDir < archiveSizeOf (readAt file p sizeEndCentDir)
          · rw [if_pos h3] at h
            simp at h
          · rw [if_neg h3] at h
            cases hm : get_mscx_filename (readAt file
                (p + sizeEndCentDir - archiveSizeOf (readAt file p sizeEndCentDir))
                (archiveSizeOf (readAt file p sizeEndCentDir))) with
            | error e =>
              rw [hm] at h
              simp at h
            | ok o =>
              rw [hm] at h
              cases o with
              | none => simp at h
              | some nm =>
                dsimp only at h
                by_cases h4 : pathSuffix nm = mscxExt
                · exact ⟨h1, h2.1, h2.2, by omega, nm, hm, h4⟩
                · rw [if_neg h4] at h
                  simp at h
        · rw [if_pos h2] at h
          simp at h
    · rintro ⟨h1, h2, h3, h4, nm, hm, hsuf⟩
      refine ⟨⟨p + sizeEndCentDir - archiveSizeOf (readAt file p sizeEndCentDir),
        readAt file (p + sizeEndCentDir - archiveSizeOf (readAt file p sizeEndCentDir))
          (archiveSizeOf (readAt file p sizeEndCentDir))⟩, ?_⟩
      simp only [processOne]
      rw [if_neg (by omega), if_neg (not_not_intro ⟨h2, h3⟩), if_neg (by omega), hm]
      dsimp only
      rw [if_pos hsuf]
  refine ⟨key, ?_⟩
  intro file a em hem
  simp only [main] at hem
  split at hem
  · simp at hem
  · split at hem
    · simp at hem
    · obtain ⟨p, hp⟩ := scanLoop_emits file a.chunkSize file.length a.seek (by omega) em hem
      exact ⟨p, hp, (key file p).mp ⟨em, hp⟩⟩

/-- Instance of claim C1 at a concrete input: the accepted candidate of
`fileC5` at offset 42, both through the per-candidate equivalence and
through emission provenance of a whole run. -/
theorem claim1_witness :
    (∃ em, processOne fileC5 42 = MatchResult.emit em) ∧
    (∃ p, processOne fileC5 p = MatchResult.emit emC5 ∧ acceptCond fileC5 p) := by
  constructor
  · exact (claim1_accept_iff.1 fileC5 42).mpr
      ⟨by decide, by decide, by decide, by decide,
        ⟨[97, 46, 109, 115, 99, 120], by decide, by decide⟩⟩
  · refine claim1_accept_iff.2 fileC5 ⟨0, 100, none⟩ emC5 ?_
    have h1 : scanLoop fileC5 100 56 = ([], none) := scanLoop_done _ _ _ (by decide)
    have h0 : scanLoop fileC5 100 0 = ([emC5], none) := by
      have h := scanLoop_cont fileC5 100 0 56 [emC5] (by decide) (by decide) (by decide)
      rw [h1] at h
      simpa using h
    have hmain : main fileC5 ⟨0, 100, none⟩ = ([emC5], none) := by
      unfold main
      rw [if_neg (by decide), if_neg (by decide)]
      exact h0
    rw [hmain]
    exact List.mem_singleton.mpr rfl

/-! ## Claim C2 -/

/-- Claim C2: for every emitted candidate, `archive_length` is
`central_dir_size + central_dir_offset + comment_length + 22`
(`archiveSizeOf`), the start offset is
`(eocd_absolute_offset + 22) - archive_length` (also as integers, since
the negative case is rejected), `start_offset + archive_length` is the
offset just past the fixed-size EOCD record, and the bytes handed to
output are exactly the span `[start_offset, start_offset +
archive_length)` of the input. -/
theorem claim2_span : ∀ (file : List Nat) (p : Nat) (em : Emission),
    processOne file p = MatchResult.emit em →
    em.start = p + sizeEndCentDir - archiveSizeOf (readAt file p sizeEndCentDir) ∧
    em.start + archiveSizeOf (readAt file p sizeEndCentDir) = p + sizeEndCentDir ∧
    (em.start : Int) =
      ((p : Int) + (sizeEndCentDir : Int)) -
        (archiveSizeOf (readAt file p sizeEndCentDir) : Int) ∧
    em.bytes = readAt file em.start (archiveSizeOf (readAt file p sizeEndCentDir)) ∧
    em.bytes.length = archiveSizeOf (readAt file p sizeEndCentDir) := by
  intro file p em h
  simp only [processOne] at h
  by_cases h1 : (readAt file p sizeEndCentDir).length ≠ sizeEndCentDir
  · rw [if_pos h1] at h
    simp at h
  · rw [if_neg h1] at h
    push_neg at h1
    by_cases h2 : (unpackEndArchive (readAt file p sizeEndCentDir)).entriesThisDisk = 3 ∧
        (unpackEndArchive (readAt file p sizeEndCentDir)).entriesTotal = 3
    · rw [if_neg (not_not_intro h2)] at h
      by_cases h3 : p + sizeEndCentDir < archiveSizeOf (readAt file p sizeEndCentDir)
      · rw [if_pos h3] at h
        simp at h
      · rw [if_neg h3] at h
        have hple : p + sizeEndCentDir ≤ file.length := by
          have := readAt_length file p sizeEndCentDir
          have h22 : 0 < sizeEndCentDir := by decide
          omega
        cases hm : get_mscx_filename (readAt file
            (p + sizeEndCentDir - archiveSizeOf (readAt file p sizeEndCentDir))
            (archiveSizeOf (readAt file p sizeEndCentDir))) with
        | error e =>
          rw [hm] at h
          simp at h
        | ok o =>
          rw [hm] at h
          cases o with
          | none => simp at h
          | some nm =>
            dsimp only at h
            by_cases h4 : pathSuffix nm = mscxExt
            · rw [if_pos h4] at h
              have hem : em = ⟨p + sizeEndCentDir - archiveSizeOf (readAt file p sizeEndCentDir),
                  readAt file (p + sizeEndCentDir - archiveSizeOf (readAt file p sizeEndCentDir))
                    (archiveSizeOf (readAt file p sizeEndCentDir))⟩ := by
                cases h
                rfl
              subst hem
              refine ⟨rfl, by dsimp only; omega, by dsimp only; omega,
                rfl, ?_⟩
              dsimp only
              rw [readAt_length]
              omega
            · rw [if_neg h4] at h
              simp at h
    · rw [if_pos h2] at h
      simp at h

/-- Instance of claim C2 at a concrete input: the span arithmetic of the
archive recovered from `fileC5`'s match at offset 42. -/
theorem claim2_witness :
    emC5.start + archiveSizeOf (readAt fileC5 42 sizeEndCentDir) =
      42 + sizeEndCentDir ∧
    emC5.bytes = readAt fileC5 emC5.start
      (archiveSizeOf (readAt fileC5 42 sizeEndCentDir)) := by
  have h := claim2_span fileC5 42 emC5 (by decide)
  exact ⟨h.2.1, h.2.2.2.1⟩

/-! ## Claim C3 -/

/-- Counterexample to claim C3 as stated: `file8` contains one EOCD
signature occurrence (offset 0), and with `chunk_size = 13` (larger than
margin + signature length) the first read returns only 8 bytes, at most
the margin, so the loop exits with no chunk ever scanned — the
signature appears whole in no scanned chunk. -/
theorem claim3_cex :
    findAll stringEndArchive file8 = [0] ∧ scannedChunks file8 13 0 = [] :=
  ⟨by decide, scannedChunks_done _ _ _ (by decide)⟩

/-- Induction core for claim C3: once more than `margin` bytes follow the
cursor, every 4-byte window of the remaining input lies whole in some
scanned chunk. -/
theorem coverage_aux : ∀ (n : Nat) (file : List Nat) (c s p : Nat),
    file.length - s ≤ n → 12 < c → 8 < file.length - s → s ≤ p →
    p + 4 ≤ file.length →
    ∃ pr ∈ scannedChunks file c s, pr.1 ≤ p ∧ p + 4 ≤ pr.2 := by
  intro n
  induction n with
  | zero =>
    intro file c s p h0 hc h8 hsp hp
    omega
  | succ n ih =>
    intro file c s p h0 hc h8 hsp hp
    have hm8 : margin = 8 := rfl
    have hlen := readAt_length file s c
    have hL : margin < (readAt file s c).length := by omega
    rw [scannedChunks_cons file c s hL]
    by_cases hcase : p + 4 ≤ s + (readAt file s c).length
    · exact ⟨(s, s + (readAt file s c).length), List.mem_cons_self _ _, hsp, hcase⟩
    · push_neg at hcase
      have hLc : (readAt file s c).length = c := by omega
      obtain ⟨pr, hpr, hp1, hp2⟩ := ih file c (s + (readAt file s c).length - margin) p
        (by omega) hc (by omega) (by omega) hp
      exact ⟨pr, List.mem_cons_of_mem _ hpr, hp1, hp2⟩

/-- Claim C3 (amended): the overlap margin is `2 × len(EOCD signature)` =
8 and each chunk after the first starts at `previous_chunk_end -
margin`; provided more than `margin` bytes lie at or after the scan
start (otherwise the very first read is at most the margin and the loop
exits before scanning anything), every whole signature occurrence in
the remaining input appears whole within at least one scanned chunk,
for every `chunk_size` larger than margin + signature length — no
boundary-straddling signature is missed. -/
theorem claim3_coverage : ∀ (file : List Nat) (c s p : Nat),
    margin + stringEndArchive.length < c →
    margin < file.length - s →
    s ≤ p → p + stringEndArchive.length ≤ file.length →
    ∃ pr ∈ scannedChunks file c s,
      pr.1 ≤ p ∧ p + stringEndArchive.length ≤ pr.2 := by
  intro file c s p hc h8 hsp hp
  have hs4 : stringEndArchive.length = 4 := rfl
  have hm8 : margin = 8 := rfl
  rw [hs4] at hp ⊢
  exact coverage_aux (file.length - s) file c s p le_rfl (by omega) (by omega) hsp hp

/-- Instance of claim C3 at a concrete input: the signature window
`[5, 9)` of a 20-byte input is covered by a scanned chunk when
`chunk_size = 13`. -/
theorem claim3_witness :
    ∃ pr ∈ scannedChunks (List.replicate 20 0) 13 0,
      pr.1 ≤ 5 ∧ 5 + stringEndArchive.length ≤ pr.2 :=
  claim3_coverage (List.replicate 20 0) 13 0 5 (by decide) (by decide)
    (by decide) (by decide)

/-! ## Lemmas for the naming collaborator (`get_safe_to_save_path`) -/

theorem subCounters_nil : subCounters [] = [] := by
  rw [subCounters]

theorem subCounters_match (rest : List Char)
    (h1 : rest.takeWhile isDig ≠ [])
    (h2 : (rest.drop (rest.takeWhile isDig).length).head? = some ')') :
    subCounters ('_' :: '(' :: rest) =
      '_' :: '(' :: (charsOfNat (natOfChars (rest.takeWhile isDig) + 1) ++
        subCounters (rest.drop (rest.takeWhile isDig).length)) := by
  rw [subCounters]
  rw [if_pos ⟨h1, h2⟩]

theorem subCounters_nomatch (rest : List Char)
    (h : ¬(rest.takeWhile isDig ≠ [] ∧
      (rest.drop (rest.takeWhile isDig).length).head? = some ')')) :
    subCounters ('_' :: '(' :: rest) = '_' :: subCounters ('(' :: rest) := by
  rw [subCounters]
  rw [if_neg h]

theorem subCounters_cons_ne (a : Char) (tail : List Char) (h : a ≠ '_') :
    subCounters (a :: tail) = a :: subCounters tail := by
  rw [subCounters.eq_def]
  split
  · rename_i heq
    simp at heq
  · rename_i x rest heq
    exact absurd (List.cons.inj heq).1 h
  · rename_i x a2 t2 hno heq
    obtain ⟨h1, h2⟩ := List.cons.inj heq
    rw [h1, h2]

theorem subCounters_underscore (tail : List Char) (h : tail.head? ≠ some '(') :
    subCounters ('_' :: tail) = '_' :: subCounters tail := by
  rw [subCounters.eq_def]
  split
  · rename_i heq
    simp at heq
  · rename_i x rest heq
    obtain ⟨-, h2⟩ := List.cons.inj heq
    rw [h2] at h
    simp at h
  · rename_i x a2 t2 hno heq
    obtain ⟨h1, h2⟩ := List.cons.inj heq
    rw [h1, h2]

theorem natDigitsAux_eq : ∀ fuel n : Nat, n ≤ fuel →
    natDigitsAux fuel n = Nat.digits 10 n := by
  intro fuel
  induction fuel with
  | zero =>
    intro n h
    have hn : n = 0 := by omega
    subst hn
    simp [natDigitsAux]
  | succ f ih =>
    intro n h
    cases n with
    | zero => simp [natDigitsAux]
    | succ m =>
      rw [natDigitsAux, Nat.digits_def' (by norm_num : (1 : Nat) < 10) (Nat.succ_pos m)]
      rw [ih ((m + 1) / 10) (by
        have := Nat.div_lt_self (Nat.succ_pos m) (by norm_num : (1 : Nat) < 10)
        omega)]

theorem natDigits_eq (n : Nat) : natDigits n = Nat.digits 10 n :=
  natDigitsAux_eq n n le_rfl

theorem isDig_digitChar {d : Nat} (h : d < 10) : isDig (Nat.digitChar d) = true := by
  interval_cases d <;> decide

theorem toNat_digitChar {d : Nat} (h : d < 10) : (Nat.digitChar d).toNat - 48 = d := by
  interval_cases d <;> decide

theorem charsOfNat_digits (n : Nat) : ∀ c ∈ charsOfNat n, isDig c = true := by
  intro c hc
  simp only [charsOfNat, natDigits_eq, List.mem_map, List.mem_reverse] at hc
  obtain ⟨d, hd, hdc⟩ := hc
  rw [← hdc]
  exact isDig_digitChar (Nat.digits_lt_base (by norm_num) hd)

theorem charsOfNat_ne_nil {n : Nat} (h : n ≠ 0) : charsOfNat n ≠ [] := by
  simp only [charsOfNat, natDigits_eq]
  simp [Nat.digits_ne_nil_iff_ne_zero.mpr h]

theorem natOfChars_charsOfNat (n : Nat) : natOfChars (charsOfNat n) = n := by
  unfold natOfChars charsOfNat
  rw [natDigits_eq, List.foldl_map, List.foldl_reverse]
  have key : ∀ L : List Nat, (∀ d ∈ L, d < 10) →
      List.foldr (fun y x => 10 * x + ((Nat.digitChar y).toNat - 48)) 0 L =
        Nat.ofDigits 10 L := by
    intro L hL
    induction L with
    | nil => simp [Nat.ofDigits]
    | cons d ds ih =>
      rw [List.foldr_cons, Nat.ofDigits_cons,
        ih (fun x hx => hL x (List.mem_cons_of_mem _ hx)),
        toNat_digitChar (hL d (List.mem_cons_self _ _))]
      ring
  rw [key _ (fun d hd => Nat.digits_lt_base (by norm_num) hd)]
  exact_mod_cast Nat.ofDigits_digits 10 n

theorem hasCounter_paren (rest : List Char) :
    hasCounter ('_' :: '(' :: rest) =
      ((decide ((rest.takeWhile isDig) ≠ []) &&
        decide ((rest.drop (rest.takeWhile isDig).length).head? = some ')')) ||
      hasCounter ('(' :: rest)) := by
  rw [hasCounter]

theorem hasCounter_cons_ne (a : Char) (tail : List Char) (h : a ≠ '_') :
    hasCounter (a :: tail) = hasCounter tail := by
  rw [hasCounter.eq_def]
  split
  · rename_i heq
    simp at heq
  · rename_i x rest heq
    exact absurd (List.cons.inj heq).1 h
  · rename_i x a2 t2 hno heq
    obtain ⟨h1, h2⟩ := List.cons.inj heq
    rw [h2]

theorem hasCounter_underscore (tail : List Char) (h : tail.head? ≠ some '(') :
    hasCounter ('_' :: tail) = hasCounter tail := by
  rw [hasCounter.eq_def]
  split
  · rename_i heq
    simp at heq
  · rename_i x rest heq
    obtain ⟨-, h2⟩ := List.cons.inj heq
    rw [h2] at h
    simp at h
  · rename_i x a2 t2 hno heq
    obtain ⟨h1, h2⟩ := List.cons.inj heq
    rw [h2]

theorem subCounters_id_of_no_counter : ∀ (n : Nat) (l : List Char), l.length ≤ n →
    hasCounter l = false → subCounters l = l := by
  intro n
  induction n with
  | zero =>
    intro l hl hc
    have hnil : l = [] := List.eq_nil_of_length_eq_zero (by omega)
    subst hnil
    exact subCounters_nil
  | succ n ih =>
    intro l hl hc
    match l with
    | [] => exact subCounters_nil
    | a :: tail =>
      by_cases ha : a = '_'
      · subst ha
        match tail with
        | [] =>
          rw [subCounters_underscore [] (by simp)]
          rw [subCounters_nil]
        | b :: t2 =>
          by_cases hb : b = '('
          · subst hb
            rw [hasCounter_paren] at hc
            simp only [Bool.or_eq_false_iff] at hc
            obtain ⟨hcond, hrest⟩ := hc
            have hnomatch : ¬(t2.takeWhile isDig ≠ [] ∧
                (t2.drop (t2.takeWhile isDig).length).head? = some ')') := by
              intro hand
              rw [decide_eq_true hand.1, decide_eq_true hand.2] at hcond
              simp at hcond
            rw [subCounters_nomatch t2 hnomatch]
            rw [ih ('(' :: t2) (by simp at hl ⊢; omega) hrest]
          · rw [subCounters_underscore (b :: t2) (by simp [hb])]
            rw [ih (b :: t2) (by simp at hl ⊢; omega)
              (by rw [hasCounter_underscore (b :: t2) (by simp [hb])] at hc; exact hc)]
      · rw [subCounters_cons_ne a tail ha]
        rw [ih tail (by simp at hl ⊢; omega)
          (by rw [hasCounter_cons_ne a tail ha] at hc; exact hc)]

theorem subCounters_append_underscore_aux :
    ∀ (n : Nat) (pre r : List Char), pre.length ≤ n →
    subCounters (pre ++ '_' :: r) = subCounters pre ++ subCounters ('_' :: r) := by
  intro n
  induction n with
  | zero =>
    intro pre r h
    have hp : pre = [] := List.eq_nil_of_length_eq_zero (by omega)
    subst hp
    simp [subCounters_nil]
  | succ n ih =>
    intro pre r hlen
    match pre with
    | [] => simp [subCounters_nil]
    | a :: tp =>
      by_cases ha : a = '_'
      · subst ha
        match tp with
        | [] =>
          rw [List.cons_append, List.nil_append]
          rw [subCounters_underscore ('_' :: r) (by simp)]
          rw [subCounters_underscore [] (by simp), subCounters_nil]
          simp
        | b :: tp2 =>
          by_cases hb : b = '('
          · subst hb
            rw [show ('_' :: '(' :: tp2) ++ '_' :: r =
              '_' :: '(' :: (tp2 ++ '_' :: r) by simp]
            have hu : isDig '_' = false := by decide
            have htu : ('_' :: r).takeWhile isDig = [] := by
              simp [List.takeWhile_cons, hu]
            by_cases hall : (tp2.takeWhile isDig).length = tp2.length
            · have htp2 : tp2.takeWhile isDig = tp2 :=
                ( List.takeWhile_prefix isDig).eq_of_length hall
              have ht : (tp2 ++ '_' :: r).takeWhile isDig = tp2 := by
                rw [List.takeWhile_append, if_pos hall, htu, List.append_nil]
              have hd : (tp2 ++ '_' :: r).drop
                  ((tp2 ++ '_' :: r).takeWhile isDig).length = '_' :: r := by
                rw [ht]
                exact List.drop_left tp2 ('_' :: r)
              rw [subCounters_nomatch (tp2 ++ '_' :: r) (by
                intro hand
                rw [hd] at hand
                simp at hand)]
              rw [subCounters_nomatch tp2 (by
                intro hand
                have hdd : tp2.drop (tp2.takeWhile isDig).length = [] := by
                  rw [hall, List.drop_length]
                rw [hdd] at hand
                simp at hand)]
              rw [show ('(' : Char) :: (tp2 ++ '_' :: r) =
                ('(' :: tp2) ++ '_' :: r by simp]
              rw [ih ('(' :: tp2) r (by simp at hlen ⊢; omega)]
              simp
            · have hlt : (tp2.takeWhile isDig).length < tp2.length :=
                lt_of_le_of_ne ( List.takeWhile_prefix isDig).length_le hall
              have ht : (tp2 ++ '_' :: r).takeWhile isDig = tp2.takeWhile isDig := by
                rw [List.takeWhile_append, if_neg hall]
              have hdropne : tp2.drop (tp2.takeWhile isDig).length ≠ [] := by
                intro hX
                have hY := congrArg List.length hX
                simp at hY
                omega
              have hd : (tp2 ++ '_' :: r).drop
                  ((tp2 ++ '_' :: r).takeWhile isDig).length =
                  tp2.drop (tp2.takeWhile isDig).length ++ '_' :: r := by
                rw [ht]
                exact List.drop_append_of_le_length (le_of_lt hlt)
              have hhead : ((tp2 ++ '_' :: r).drop
                  ((tp2 ++ '_' :: r).takeWhile isDig).length).head? =
                  (tp2.drop (tp2.takeWhile isDig).length).head? := by
                rw [hd]
                exact List.head?_append_of_ne_nil _ hdropne
              by_cases hmatch : tp2.takeWhile isDig ≠ [] ∧
                  (tp2.drop (tp2.takeWhile isDig).length).head? = some ')'
              · rw [subCounters_match (tp2 ++ '_' :: r)
                  (by rw [ht]; exact hmatch.1) (by rw [hhead]; exact hmatch.2)]
                rw [subCounters_match tp2 hmatch.1 hmatch.2]
                rw [hd, ht]
                rw [ih (tp2.drop (tp2.takeWhile isDig).length) r (by
                  rw [List.length_drop]
                  simp at hlen
                  omega)]
                simp
              · rw [subCounters_nomatch (tp2 ++ '_' :: r) (by
                  intro hand
                  refine hmatch ⟨?_, ?_⟩
                  · rw [← ht]
                    exact hand.1
                  · rw [← hhead]
                    exact hand.2)]
                rw [subCounters_nomatch tp2 hmatch]
                rw [show ('(' : Char) :: (tp2 ++ '_' :: r) =
                  ('(' :: tp2) ++ '_' :: r by simp]
                rw [ih ('(' :: tp2) r (by simp at hlen ⊢; omega)]
                simp
          · rw [show ('_' :: b :: tp2) ++ '_' :: r =
              '_' :: ((b :: tp2) ++ '_' :: r) by simp]
            rw [subCounters_underscore ((b :: tp2) ++ '_' :: r) (by simp [hb])]
            rw [subCounters_underscore (b :: tp2) (by simp [hb])]
            rw [ih (b :: tp2) r (by simp at hlen ⊢; omega)]
            simp
      · rw [List.cons_append, subCounters_cons_ne a (tp ++ '_' :: r) ha,
          subCounters_cons_ne a tp ha, ih tp r (by simp at hlen ⊢; omega),
          List.cons_append]

/-- The `re.sub` substitution distributes over a split right before an
underscore: no match of the pattern can straddle such a split. -/
theorem subCounters_append_underscore (pre r : List Char) :
    subCounters (pre ++ '_' :: r) = subCounters pre ++ subCounters ('_' :: r) :=
  subCounters_append_underscore_aux pre.length pre r le_rfl

theorem subCounters_counter (ds : List Char) (h1 : ds ≠ [])
    (h2 : ∀ c ∈ ds, isDig c = true) :
    subCounters ('_' :: '(' :: (ds ++ [')'])) =
      '_' :: '(' :: (charsOfNat (natOfChars ds + 1) ++ [')']) := by
  have hds : ds.takeWhile isDig = ds := List.takeWhile_eq_self_iff.mpr h2
  have ht : (ds ++ [')']).takeWhile isDig = ds := by
    rw [List.takeWhile_append, if_pos (by rw [hds])]
    have hp : isDig ')' = false := by decide
    simp [List.takeWhile_cons, hp]
  have hd : (ds ++ [')']).drop ((ds ++ [')']).takeWhile isDig).length = [')'] := by
    rw [ht]
    exact List.drop_left ds [')']
  rw [subCounters_match (ds ++ [')']) (by rw [ht]; exact h1) (by rw [hd]; rfl)]
  rw [hd, ht]
  rw [subCounters_cons_ne ')' [] (by decide), subCounters_nil]

theorem append_cons_eq_of_forall {α : Type} (p : α → Bool) :
    ∀ (a : List α) (b : List α) (x y : α) (u v : List α),
      (∀ c ∈ a, p c = true) → (∀ c ∈ b, p c = true) →
      p x = false → p y = false →
      a ++ x :: u = b ++ y :: v → a = b ∧ x = y ∧ u = v := by
  intro a
  induction a with
  | nil =>
    intro b x y u v _ hb hx hy h
    cases b with
    | nil =>
      simp only [List.nil_append] at h
      obtain ⟨h1, h2⟩ := List.cons.inj h
      exact ⟨rfl, h1, h2⟩
    | cons c bt =>
      simp only [List.nil_append, List.cons_append] at h
      obtain ⟨h1, -⟩ := List.cons.inj h
      rw [h1] at hx
      rw [hb c (List.mem_cons_self _ _)] at hx
      simp at hx
  | cons c at' ih =>
    intro b x y u v ha hb hx hy h
    cases b with
    | nil =>
      simp only [List.cons_append, List.nil_append] at h
      obtain ⟨h1, -⟩ := List.cons.inj h
      rw [← h1] at hy
      rw [ha c (List.mem_cons_self _ _)] at hy
      simp at hy
    | cons d bt =>
      simp only [List.cons_append] at h
      obtain ⟨h1, h2⟩ := List.cons.inj h
      obtain ⟨e1, e2, e3⟩ := ih bt x y u v
        (fun z hz => ha z (List.mem_cons_of_mem _ hz))
        (fun z hz => hb z (List.mem_cons_of_mem _ hz)) hx hy h2
      exact ⟨by rw [h1, e1], e2, e3⟩

theorem charsOfNat_injective {a b : Nat} (h : charsOfNat a = charsOfNat b) :
    a = b := by
  have h2 := congrArg natOfChars h
  rwa [natOfChars_charsOfNat, natOfChars_charsOfNat] at h2

theorem reverse_append_counter (q : List Char) (k : Nat) :
    (q ++ counterOf k).reverse =
      ')' :: ((charsOfNat k).reverse ++ '(' :: '_' :: q.reverse) := by
  simp [counterOf, List.reverse_append]

theorem subCounters_stem_counter (pre : List Char) (n : Nat) (hn : 1 ≤ n) :
    subCounters (pre ++ counterOf n) = subCounters pre ++ counterOf (n + 1) := by
  unfold counterOf
  rw [subCounters_append_underscore pre ('(' :: (charsOfNat n ++ [')']))]
  rw [subCounters_counter (charsOfNat n) (charsOfNat_ne_nil (by omega))
    (charsOfNat_digits n)]
  rw [natOfChars_charsOfNat]

/-- A stem ending in the counter `_(n)` steps to the same stem with that
counter incremented to `_(n+1)` (and nothing appended): the `re.sub`
result differs from the stem, so the `_(1)`-appending branch is not
taken. -/
theorem nextStem_counter (pre : List Char) (n : Nat) (hn : 1 ≤ n) :
    nextStem (pre ++ counterOf n) = subCounters pre ++ counterOf (n + 1) := by
  have hsub := subCounters_stem_counter pre n hn
  have hne : ¬(subCounters (pre ++ counterOf n) = pre ++ counterOf n) := by
    rw [hsub]
    intro heq
    have hrev := congrArg List.reverse heq
    rw [reverse_append_counter, reverse_append_counter] at hrev
    have h2 := (List.cons.inj hrev).2
    obtain ⟨e1, -, -⟩ := append_cons_eq_of_forall isDig
      ((charsOfNat (n + 1)).reverse) ((charsOfNat n).reverse) '(' '(' _ _
      (fun c hc => charsOfNat_digits (n + 1) c (List.mem_reverse.mp hc))
      (fun c hc => charsOfNat_digits n c (List.mem_reverse.mp hc))
      (by decide) (by decide) h2
    have e2 : charsOfNat (n + 1) = charsOfNat n := by
      rw [← List.reverse_reverse (charsOfNat (n + 1)), e1, List.reverse_reverse]
    have e3 := charsOfNat_injective e2
    omega
  unfold nextStem
  rw [if_neg hne]
  exact hsub

theorem get_safe_free : ∀ (fuel : Nat) (ex : List (List Char))
    (suf stem res : List Char),
    get_safe_to_save_path ex suf fuel stem = some res → (res ++ suf) ∉ ex := by
  intro fuel
  induction fuel with
  | zero =>
    intro ex suf stem res h
    simp [get_safe_to_save_path] at h
  | succ f ih =>
    intro ex suf stem res h
    simp only [get_safe_to_save_path] at h
    by_cases hm : (stem ++ suf) ∈ ex
    · rw [if_pos hm] at h
      exact ih ex suf _ res h
    · rw [if_neg hm] at h
      rw [← Option.some.inj h]
      exact hm

/-! ## Claim C9 -/

/-- Claim C9: a free path is returned unchanged; on a collision a stem
with no `_(n)` counter gains the suffix `_(1)`; a stem ending in the
counter `_(n)` has that counter incremented to `_(n+1)` (not
duplicated); this repeats until the returned name collides with no
existing file; in particular, with `title.mscz` taken the result is
`title_(1).mscz`, and with `title.mscz` and `title_(1).mscz` taken it
is `title_(2).mscz`. -/
theorem claim9_safe_path :
    (∀ (ex : List (List Char)) (suf stem : List Char) (fuel : Nat),
      (stem ++ suf) ∉ ex →
      get_safe_to_save_path ex suf (fuel + 1) stem = some stem) ∧
    (∀ (ex : List (List Char)) (suf stem : List Char) (fuel : Nat),
      (stem ++ suf) ∈ ex → hasCounter stem = false →
      get_safe_to_save_path ex suf (fuel + 1) stem =
        get_safe_to_save_path ex suf fuel (stem ++ counterOf 1)) ∧
    (∀ (pre : List Char) (n : Nat), 1 ≤ n →
      nextStem (pre ++ counterOf n) = subCounters pre ++ counterOf (n + 1)) ∧
    (∀ (ex : List (List Char)) (suf stem res : List Char) (fuel : Nat),
      get_safe_to_save_path ex suf fuel stem = some res → (res ++ suf) ∉ ex) ∧
    get_safe_to_save_path [titleName] sufMscz 3 titleT =
      some (titleT ++ counterOf 1) ∧
    get_safe_to_save_path [titleName, title1Name] sufMscz 3 titleT =
      some (titleT ++ counterOf 2) := by
  have hn1 : nextStem titleT = titleT ++ counterOf 1 := by
    unfold nextStem
    rw [if_pos (subCounters_id_of_no_counter titleT.length titleT le_rfl (by decide))]
    rfl
  refine ⟨?_, ?_, ?_, ?_, ?_, ?_⟩
  · intro ex suf stem fuel hm
    simp only [get_safe_to_save_path]
    rw [if_neg hm]
  · intro ex suf stem fuel hm hc
    simp only [get_safe_to_save_path]
    rw [if_pos hm]
    have h1 : nextStem stem = stem ++ counterOf 1 := by
      unfold nextStem
      rw [if_pos (subCounters_id_of_no_counter stem.length stem le_rfl hc)]
      rfl
    rw [h1]
  · intro pre n hn
    exact nextStem_counter pre n hn
  · intro ex suf stem res fuel h
    exact get_safe_free fuel ex suf stem res h
  · rw [show (3 : Nat) = 2 + 1 from rfl]
    simp only [get_safe_to_save_path]
    rw [if_pos (by decide)]
    simp only [hn1]
    rw [if_neg (by decide)]
  · rw [show (3 : Nat) = 2 + 1 from rfl]
    simp only [get_safe_to_save_path]
    rw [if_pos (by decide)]
    simp only [hn1]
    rw [if_pos (by decide)]
    have hn2 : nextStem (titleT ++ counterOf 1) = titleT ++ counterOf 2 := by
      rw [nextStem_counter titleT 1 le_rfl]
      rw [subCounters_id_of_no_counter titleT.length titleT le_rfl (by decide)]
    simp only [hn2]
    rw [if_neg (by decide)]

/-- Instance of claim C9 at a concrete input: the stem `title_(1)` steps
to `title_(2)`. -/
theorem claim9_witness :
    nextStem (titleT ++ counterOf 1) = subCounters titleT ++ counterOf 2 :=
  claim9_safe_path.2.2.1 titleT 1 le_rfl

end RecoverMscz
